import Mathlib

/-
Verification of the DeployKnot deployment orchestrator against its
natural-language specification.

The Go sources are shallowly embedded: pure helpers become Lean functions
on `String` / `List Char`; the worker's database mutations become explicit
state passing over a list of step rows; fallible operations return
`Except` / `Option`; the nondeterministic outcomes of remote SSH commands
and database writes are passed in as boolean oracles.  Machine integers
are modelled as `Int` / `Nat` (all quantities involved - ports, step
orders - are far from the 64-bit boundary).  Strings are treated as their
character lists; the only divergence from Go's byte-level view is
irrelevant here because every concrete input is ASCII.
-/

namespace DeployKnot

/-- Status domain shared by deployments and steps
(Go `models.DeploymentStatus`, internal/models/deployment.go). -/
inductive DeploymentStatus where
  | pending
  | running
  | completed
  | failed
  | cancelled
  | aborted
deriving DecidableEq, Repr

/-- One `deployment_steps` row, reduced to the fields the claims speak
about (Go `models.DeploymentStep`; id and timestamps are omitted, rows are
addressed by `stepOrder` exactly as the worker does). -/
structure Step where
  stepName : String
  stepOrder : Nat
  status : DeploymentStatus
  errorMessage : Option String
deriving DecidableEq, Repr

/-- Step rows written by `DeploymentService.createInitialSteps`
(internal/services/deployment.go:197-224; the identical function also
appears in the service copy carried inside DeployKnot_API_Collection.json).
The source iterates over the literal list
`{validate_credentials,1},{git_clone,2},{docker_build,3},{docker_run,4},{health_check,5}`
and inserts one pending row per entry. -/
def createInitialSteps : List Step :=
  [ { stepName := "validate_credentials", stepOrder := 1, status := .pending, errorMessage := none }
  , { stepName := "git_clone", stepOrder := 2, status := .pending, errorMessage := none }
  , { stepName := "docker_build", stepOrder := 3, status := .pending, errorMessage := none }
  , { stepName := "docker_run", stepOrder := 4, status := .pending, errorMessage := none }
  , { stepName := "health_check", stepOrder := 5, status := .pending, errorMessage := none } ]

/-- Digit-string parser underlying Go's `strconv.Atoi`: at least one digit,
all characters decimal digits. -/
def parseDigits (l : List Char) : Option Nat :=
  match l with
  | [] => none
  | _ =>
    if l.all (fun c => c.isDigit) then
      some (l.foldl (fun acc c => 10 * acc + (c.toNat - 48)) 0)
    else
      none

/-- Model of Go `strconv.Atoi`: optional sign followed by digits.
Go additionally rejects values outside the 64-bit range; that case is
subsumed here because every such value also fails the 1..65535 port check,
so the accept/reject verdict of `getPortAsInt` is unaffected. -/
def goAtoi (s : String) : Option Int :=
  match s.data with
  | '+' :: rest => (parseDigits rest).map (fun n => (n : Int))
  | '-' :: rest => (parseDigits rest).map (fun n => -(n : Int))
  | l => (parseDigits l).map (fun n => (n : Int))

/-- Model of `CreateDeploymentRequest.GetPortAsInt`
(internal/models/deployment.go:92-107): reject empty, parse via Atoi,
reject values outside 1..65535. -/
def getPortAsInt (port : String) : Except String Int :=
  if port = "" then .error "port is required"
  else
    match goAtoi port with
    | none => .error ("invalid port number: " ++ port)
    | some p =>
      if p < 1 ∨ p > 65535 then .error "port must be between 1 and 65535"
      else .ok p

/-- Success test for `Except` results. -/
def exceptOk {ε α : Type} (e : Except ε α) : Bool :=
  match e with
  | .ok _ => true
  | .error _ => false

/-! Worker state machine (cmd/worker/main.go, `Worker`).  Database step rows
are the explicit state; the outcomes of the remote SSH commands are boolean
oracles. -/

/-- Abandonment reason written by `Worker.markRemainingStepsAsFailed`. -/
def abandonMsg (failedStepOrder : Nat) : String :=
  "Step abandoned due to failure in step " ++ toString failedStepOrder

/-- Replace the first element satisfying `p` (the Go loops fetch the rows,
scan them in order and `break` at the first match). -/
def updateFirst (p : Step → Bool) (f : Step → Step) : List Step → List Step
  | [] => []
  | s :: rest => if p s then f s :: rest else s :: updateFirst p f rest

/-- Model of `Worker.updateDeploymentStep`: fetch the steps, locate the
first row with the given step_order, overwrite its status and error
message (timestamps dropped).  When no row matches, the Go function
returns an error that every caller only logs, so the rows are unchanged. -/
def updateDeploymentStep (steps : List Step) (order : Nat)
    (status : DeploymentStatus) (errorMessage : Option String) : List Step :=
  updateFirst (fun s => s.stepOrder == order)
    (fun s => { s with status := status, errorMessage := errorMessage }) steps

/-- Model of `Worker.markRemainingStepsAsFailed`: iterate over the fetched
snapshot of rows; for each row satisfying
`(step_order > failedStepOrder && status == pending) || status == running`
(Go's `&&` binds tighter than `||`), overwrite that row to failed with the
abandonment reason via `updateDeploymentStep`. -/
def markRemainingStepsAsFailed (steps : List Step) (failedStepOrder : Nat) : List Step :=
  steps.foldl
    (fun acc step =>
      if (failedStepOrder < step.stepOrder ∧ step.status = .pending) ∨
          step.status = .running then
        updateDeploymentStep acc step.stepOrder .failed (some (abandonMsg failedStepOrder))
      else acc)
    steps

/-- Shared shape of the worker's four pipeline functions (`cloneRepository`,
`buildDockerImage`, `runDockerContainer` / `runDockerContainerWithEnvFile`,
`healthCheck`): mark the row with the function's hard-coded step order
running, execute the remote commands, then mark it completed on success or
failed with the captured reason on failure. -/
def runPipelineStep (steps : List Step) (order : Nat) (ok : Bool) (failMsg : String) :
    List Step × Bool :=
  let steps := updateDeploymentStep steps order .running none
  if ok then (updateDeploymentStep steps order .completed none, true)
  else (updateDeploymentStep steps order .failed (some failMsg), false)

/-- Model of `Worker.executeDeploymentSteps`: the four pipeline functions
in order with hard-coded step orders 1..4; after a failure at stage k the
worker calls `markRemainingStepsAsFailed k` and stops. -/
def executeDeploymentSteps (steps : List Step) (cloneOk buildOk runOk healthOk : Bool) :
    List Step × Bool :=
  match runPipelineStep steps 1 cloneOk "Git clone failed" with
  | (steps, false) => (markRemainingStepsAsFailed steps 1, false)
  | (steps, true) =>
    match runPipelineStep steps 2 buildOk "Docker build failed" with
    | (steps, false) => (markRemainingStepsAsFailed steps 2, false)
    | (steps, true) =>
      match runPipelineStep steps 3 runOk "Docker run failed" with
      | (steps, false) => (markRemainingStepsAsFailed steps 3, false)
      | (steps, true) =>
        match runPipelineStep steps 4 healthOk "Health check failed" with
        | (steps, false) => (markRemainingStepsAsFailed steps 4, false)
        | (steps, true) => (steps, true)

/-- Model of `Worker.processDeploymentJob`: set the deployment running; on
SSH connect failure mark step 1 failed, abandon the rest and fail the
deployment; otherwise run the pipeline and finish completed or failed. -/
def processDeploymentJob (steps : List Step) (sshOk cloneOk buildOk runOk healthOk : Bool) :
    DeploymentStatus × List Step :=
  if sshOk then
    match executeDeploymentSteps steps cloneOk buildOk runOk healthOk with
    | (steps, true) => (.completed, steps)
    | (steps, false) => (.failed, steps)
  else
    let steps := updateDeploymentStep steps 1 .failed
      (some "Failed to connect to target server")
    (.failed, markRemainingStepsAsFailed steps 1)

/-! Deployment coordinator (`DeploymentService.CreateDeploymentWithEnvFile`,
carried in DeployKnot_API_Collection.json; `CreateDeployment` in
internal/services/deployment.go has the same control flow). -/

/-- Step rows actually inserted when `repo.CreateDeploymentStep` fails at
the i-th write: `createInitialSteps` loops in order and returns the error
at the first failing insert, keeping the rows already written. -/
def createInitialStepsWrite (stepFailAt : Option (Fin 5)) : List Step × Bool :=
  match stepFailAt with
  | none => (createInitialSteps, true)
  | some i => (createInitialSteps.take i, false)

/-- Observable effects of one coordinator creation call. -/
structure CreateEffects where
  deploymentWritten : Bool
  stepsWritten : List Step
  enqueued : Bool
  surfacedError : Bool
deriving DecidableEq, Repr

/-- Model of `CreateDeploymentWithEnvFile` after validation: insert the
deployment row (an error is returned to the caller and nothing else
happens); call `createInitialSteps`, whose error is only logged
("Don't fail the entire request if steps creation fails"); enqueue the job,
whose error is also only logged.  `depWriteOk` / `stepFailAt` / `enqueueOk`
are the oracles for the three fallible effects. -/
def createDeploymentWithEnvFile (depWriteOk : Bool) (stepFailAt : Option (Fin 5))
    (enqueueOk : Bool) : CreateEffects :=
  if depWriteOk then
    let stepsResult := createInitialStepsWrite stepFailAt
    { deploymentWritten := true
    , stepsWritten := stepsResult.1
    , enqueued := enqueueOk
    , surfacedError := false }
  else
    { deploymentWritten := false, stepsWritten := [], enqueued := false,
      surfacedError := true }

/-! Read path for deployments (`Repository.GetDeployment`,
`DeploymentService.GetDeployment`, `DeploymentHandler.GetDeployment`). -/

/-- One `deployments` row (Go `models.Deployment`; uuids and timestamps are
modelled as strings and naturals). -/
structure Deployment where
  id : String
  createdAt : Nat
  updatedAt : Nat
  status : DeploymentStatus
  targetIP : String
  sshUsername : String
  sshPasswordEncrypted : Option String
  githubRepoURL : String
  githubPATEncrypted : Option String
  githubBranch : String
  port : Int
  containerName : Option String
  startedAt : Option Nat
  completedAt : Option Nat
  errorMessage : Option String
  projectName : Option String
  deploymentName : Option String
  userID : Option String
deriving DecidableEq, Repr

/-- Model of `Repository.GetDeployment`
(internal/database/repository.go:108-159): `sql.ErrNoRows` becomes the
error string "deployment not found". -/
def repoGetDeployment (db : List Deployment) (id : String) : Except String Deployment :=
  match db.find? (fun d => d.id == id) with
  | none => .error "deployment not found"
  | some d => .ok d

/-- Fields of Go `models.DeploymentResponse`: the read-API projection of a
deployment, without the credential columns. -/
structure DeploymentResponse where
  id : String
  status : DeploymentStatus
  targetIP : String
  githubRepoURL : String
  githubBranch : String
  port : Int
  containerName : Option String
  createdAt : Nat
  startedAt : Option Nat
  completedAt : Option Nat
  errorMessage : Option String
  projectName : Option String
  deploymentName : Option String
deriving DecidableEq, Repr

/-- Projection used verbatim by both `DeploymentService.GetDeployment` and
`DeploymentService.GetDeploymentsByUser` when building a response. -/
def deploymentToResponse (d : Deployment) : DeploymentResponse :=
  { id := d.id
  , status := d.status
  , targetIP := d.targetIP
  , githubRepoURL := d.githubRepoURL
  , githubBranch := d.githubBranch
  , port := d.port
  , containerName := d.containerName
  , createdAt := d.createdAt
  , startedAt := d.startedAt
  , completedAt := d.completedAt
  , errorMessage := d.errorMessage
  , projectName := d.projectName
  , deploymentName := d.deploymentName }

/-- Model of `DeploymentService.GetDeployment`: a repository error is
wrapped as `fmt.Errorf("failed to get deployment: %w", err)`. -/
def serviceGetDeployment (db : List Deployment) (id : String) :
    Except String DeploymentResponse :=
  match repoGetDeployment db id with
  | .error e => .error ("failed to get deployment: " ++ e)
  | .ok d => .ok (deploymentToResponse d)

/-- Model of `DeploymentHandler.GetDeployment` (src/unnamed/part_004) for a
well-formed id: 404 only when the service error text equals exactly
"deployment not found", 500 for any other error, 200 on success. -/
def handlerGetDeployment (db : List Deployment) (id : String) : Nat :=
  match serviceGetDeployment db id with
  | .error e => if e = "deployment not found" then 404 else 500
  | .ok _ => 200

/-! Container-name resolution (`DeploymentService.generateContainerName`
and `sanitizeContainerName`, service copy in
DeployKnot_API_Collection.json). -/

/-- Remove trailing characters satisfying `p` (right half of Go
`strings.Trim`). -/
def trimRightBy (p : Char → Bool) : List Char → List Char
  | [] => []
  | a :: rest =>
    let r := trimRightBy p rest
    if r = [] then (if p a then [] else [a]) else a :: r

/-- Remove leading characters satisfying `p` (left half of Go
`strings.Trim`). -/
def trimLeftBy (p : Char → Bool) (l : List Char) : List Char :=
  l.dropWhile p

/-- Go `strings.Trim` with the cutset membership test `p`: drop the longest
runs of cutset characters at both ends. -/
def trimBy (p : Char → Bool) (l : List Char) : List Char :=
  trimRightBy p (trimLeftBy p l)

/-- Character filter inside `sanitizeContainerName`: keep `[a-z0-9-]`,
replace every other character with a hyphen. -/
def sanitizeChar (c : Char) : Char :=
  if ('a' ≤ c ∧ c ≤ 'z') ∨ ('0' ≤ c ∧ c ≤ '9') ∨ c = '-' then c else '-'

/-- Model of `sanitizeContainerName`: lowercase, map every character through
the filter, trim hyphens at both ends, replace an empty result with "app",
truncate to 50 characters. -/
def sanitizeContainerName (name : String) : String :=
  let mapped := (name.data.map Char.toLower).map sanitizeChar
  let trimmed := trimBy (fun c => c = '-') mapped
  let nonEmpty := if trimmed = [] then "app".data else trimmed
  String.mk (if nonEmpty.length > 50 then nonEmpty.take 50 else nonEmpty)

/-- Model of `DeploymentService.generateContainerName`: a non-empty caller
supplied container_name wins; else, with non-empty project and deployment
display names, `deployknot-{sanitize(project)}-{sanitize(deployment)}`;
else `deployknot-{deployment id}`. -/
def generateContainerName (deploymentID : String)
    (containerName projectName deploymentName : Option String) : String :=
  if containerName.getD "" ≠ "" then containerName.getD ""
  else if projectName.getD "" ≠ "" ∧ deploymentName.getD "" ≠ "" then
    "deployknot-" ++ sanitizeContainerName (projectName.getD "") ++ "-" ++
      sanitizeContainerName (deploymentName.getD "")
  else "deployknot-" ++ deploymentID

/-! End-to-end creation/read chain used by the secret-hygiene claim. -/

/-- Fields of `models.CreateDeploymentRequest` (multipart form). -/
structure CreateDeploymentRequest where
  targetIP : String
  sshUsername : String
  sshPassword : String
  githubRepoURL : String
  githubPAT : String
  githubBranch : String
  port : String
  containerName : Option String
  projectName : Option String
  deploymentName : Option String
deriving DecidableEq, Repr

/-- Deployment row built by `CreateDeploymentWithEnvFile` from a validated
request: the SSH password and GitHub PAT land in the credential columns,
the container name is resolved through `generateContainerName` and the port
through `GetPortAsInt` (a port error aborts creation before any write). -/
def createDeploymentRow (req : CreateDeploymentRequest) (deploymentID : String)
    (now : Nat) (userID : String) : Option Deployment :=
  match getPortAsInt req.port with
  | .error _ => none
  | .ok port =>
    some
      { id := deploymentID
      , createdAt := now
      , updatedAt := now
      , status := .pending
      , targetIP := req.targetIP
      , sshUsername := req.sshUsername
      , sshPasswordEncrypted := some req.sshPassword
      , githubRepoURL := req.githubRepoURL
      , githubPATEncrypted := some req.githubPAT
      , githubBranch := req.githubBranch
      , port := port
      , containerName := some (generateContainerName deploymentID req.containerName
          req.projectName req.deploymentName)
      , startedAt := none
      , completedAt := none
      , errorMessage := none
      , projectName := req.projectName
      , deploymentName := req.deploymentName
      , userID := some userID }

/-- Model of `DeploymentService.GetDeploymentsByUser` over
`Repository.GetDeploymentsByUserID`: the user's rows projected through the
response shape.  ORDER BY created_at DESC with LIMIT/OFFSET acts on the
created_at column only, which is independent of the credential columns, so
it is dropped here. -/
def serviceGetDeploymentsByUser (db : List Deployment) (userID : String) :
    List DeploymentResponse :=
  (db.filter (fun d => d.userID == some userID)).map deploymentToResponse

/-! Log stream (`DeploymentHandler.streamDeploymentLogs`,
src/unnamed/part_004:213-271, polling `Repository.GetDeploymentLogs`). -/

/-- One `deployment_logs` row reduced to what the stream consumes: the uuid
rendered as a string (the cursor compares uuid strings lexicographically;
the ids produced by `uuid.New()` are random, hence in no relation to
insertion order) and created_at. -/
structure LogRow where
  id : String
  createdAt : Nat
  message : String
deriving DecidableEq, Repr

/-- Insertion step of the created_at ascending sort. -/
def insertByCreatedAt (r : LogRow) : List LogRow → List LogRow
  | [] => [r]
  | x :: rest =>
    if r.createdAt < x.createdAt then r :: x :: rest else x :: insertByCreatedAt r rest

/-- Rows ordered by created_at ascending (ties keep table order, which SQL
leaves unspecified anyway). -/
def sortByCreatedAt (l : List LogRow) : List LogRow :=
  l.foldr insertByCreatedAt []

/-- Model of `Repository.GetDeploymentLogs`: `ORDER BY created_at ASC
LIMIT $2` over the deployment's log rows. -/
def getDeploymentLogs (db : List LogRow) (limit : Nat) : List LogRow :=
  (sortByCreatedAt db).take limit

/-- Lexicographic strict order on character lists: the comparison Go
performs on the uuid strings in `log.ID.String() > lastLogID.String()`. -/
def lexLess : List Char → List Char → Bool
  | [], [] => false
  | [], _ :: _ => true
  | _ :: _, [] => false
  | a :: as, b :: bs => if a < b then true else if b < a then false else lexLess as bs

/-- Lexicographic strict order on strings (Go `s < t` on the uuid
strings). -/
def goStringLt (a b : String) : Bool :=
  lexLess a.data b.data

/-- Reflexive closure of `goStringLt`, used to state cursor monotonicity. -/
def strLE (a b : String) : Prop :=
  a = b ∨ goStringLt a b = true

/-- Observer-visible state of one SSE stream: the rows emitted so far, in
emission order, and the `lastLogID` cursor. -/
structure StreamState where
  emitted : List LogRow
  cursor : String
deriving DecidableEq, Repr

/-- Model of the attach phase of `streamDeploymentLogs`: emit every row of
the initial `GetDeploymentLogs(50)` batch and raise the cursor to the
lexicographic max of the emitted ids.  `lastLogID` starts as the zero
uuid, which compares below every id `uuid.New()` generates; the empty
string plays that role here. -/
def streamAttach (db : List LogRow) : StreamState :=
  let batch := getDeploymentLogs db 50
  { emitted := batch
  , cursor := batch.foldl (fun c l => if goStringLt c l.id then l.id else c) "" }

/-- Per-row action of the 1-second poll loop: emit the row and advance the
cursor exactly when its id is strictly greater than `lastLogID`. -/
def streamPollStep (st : StreamState) (l : LogRow) : StreamState :=
  if goStringLt st.cursor l.id then { emitted := st.emitted ++ [l], cursor := l.id } else st

/-- Model of one poll tick: fetch `GetDeploymentLogs(100)` against the
table as of that tick and run the filter over the batch. -/
def streamPoll (st : StreamState) (db : List LogRow) : StreamState :=
  (getDeploymentLogs db 100).foldl streamPollStep st

/-- Whole stream run: attach against the initial table contents, then one
poll per element of `polls`, each seeing the table contents of its tick. -/
def streamRun (db0 : List LogRow) (polls : List (List LogRow)) : StreamState :=
  polls.foldl streamPoll (streamAttach db0)

/-- First appended row of the C3 scenario: earliest created_at, but a
lexicographically large id. -/
def logRowB : LogRow :=
  { id := "b1", createdAt := 1, message := "first" }

/-- Second appended row of the C3 scenario: later created_at, smaller id. -/
def logRowA : LogRow :=
  { id := "a2", createdAt := 2, message := "second" }

/-! Environment-variable normalization
(`Worker.processEnvironmentVariables`, src/unnamed/part_012:540-576). -/

/-- ASCII whitespace removed by Go `strings.TrimSpace` (the full Unicode
space class only adds code points that never occur in the inputs of
interest). -/
def isGoSpace (c : Char) : Bool :=
  c = ' ' || c = '\t' || c = '\n' || c = '\x0b' || c = '\x0c' || c = '\r'

/-- Single-quote character, named by code point. -/
def squote : Char := Char.ofNat 39

/-- Cutset of `strings.Trim(value, ...)` in the source: double and single
quote. -/
def isQuoteChar (c : Char) : Bool :=
  c = '"' || c = squote

/-- Go `strings.TrimSpace`. -/
def goTrimSpace (l : List Char) : List Char :=
  trimBy isGoSpace l

/-- Go `strings.Trim(value, ...)` with the quote cutset. -/
def goTrimQuotes (l : List Char) : List Char :=
  trimBy isQuoteChar l

/-- Go `strings.Split(s, sep)` for a one-character separator. -/
def splitOnChar (c : Char) : List Char → List (List Char)
  | [] => [[]]
  | a :: rest =>
    let r := splitOnChar c rest
    if a = c then [] :: r
    else
      match r with
      | [] => [[a]]
      | h :: t => (a :: h) :: t

/-- Go `strings.Join(lines, sep)` for a one-character separator. -/
def joinWith (c : Char) : List (List Char) → List Char
  | [] => []
  | [l] => l
  | l :: l2 :: ls => l ++ c :: joinWith c (l2 :: ls)

/-- Per-line body of `processEnvironmentVariables`: trim the line, skip it
when empty, a `#` comment, or without `=`; otherwise split at the first
`=`, trim the key and the value, strip quotes from the value and rebuild
`key=value`. -/
def processLine (line : List Char) : Option (List Char) :=
  let l := goTrimSpace line
  if l = [] then none
  else if l.head? = some '#' then none
  else if !(l.contains '=') then none
  else
    let key := goTrimSpace (l.takeWhile (fun ch => ch != '='))
    let value := goTrimQuotes (goTrimSpace ((l.dropWhile (fun ch => ch != '=')).tail))
    some (key ++ '=' :: value)

/-- Model of `Worker.processEnvironmentVariables`: split on newlines,
normalize each line, drop the rejected ones and join with newlines. -/
def processEnvironmentVariables (s : String) : String :=
  String.mk (joinWith '\n' ((splitOnChar '\n' s.data).filterMap processLine))

/-- Pointwise effect that `markRemainingStepsAsFailed` is proved to have on
each row: overwrite to failed exactly when
`(step_order > k and pending) or running`. -/
def abandonOverwrite (failedStepOrder : Nat) (s : Step) : Step :=
  if (failedStepOrder < s.stepOrder ∧ s.status = .pending) ∨ s.status = .running then
    { s with status := .failed, errorMessage := some (abandonMsg failedStepOrder) }
  else s

/-- Concrete rows used to witness the `markRemainingStepsAsFailed`
characterization: one row in each reachable status around the failure
point. -/
def demoSteps : List Step :=
  [ { stepName := "validate_credentials", stepOrder := 1, status := .completed, errorMessage := none }
  , { stepName := "git_clone", stepOrder := 2, status := .failed, errorMessage := some "boom" }
  , { stepName := "docker_build", stepOrder := 3, status := .running, errorMessage := none }
  , { stepName := "docker_run", stepOrder := 4, status := .pending, errorMessage := none }
  , { stepName := "health_check", stepOrder := 5, status := .pending, errorMessage := none } ]

end DeployKnot

namespace DeployKnot

/-- C1 counterexample: the rows written by `createInitialSteps` are not the
four rows `git_clone`→1 … `health_check`→4 claimed; the function writes five
rows and the row with step_order 1 is named `validate_credentials`. -/
theorem createInitialSteps_not_four_rows :
    createInitialSteps.map (fun s => (s.stepName, s.stepOrder)) ≠
      [("git_clone", 1), ("docker_build", 2), ("docker_run", 3), ("health_check", 4)] ∧
    createInitialSteps.length = 5 := by
  decide

/-- C1 amended: every deployment created through the coordinator gets exactly
five step rows, with step_order 1..5 and names `validate_credentials` (1),
`git_clone` (2), `docker_build` (3), `docker_run` (4), `health_check` (5),
all initially pending. -/
theorem createInitialSteps_rows :
    createInitialSteps.map (fun s => (s.stepName, s.stepOrder)) =
      [("validate_credentials", 1), ("git_clone", 2), ("docker_build", 3),
       ("docker_run", 4), ("health_check", 5)] ∧
    ∀ s ∈ createInitialSteps, s.status = .pending := by
  refine ⟨rfl, ?_⟩
  decide

/-- C1 witness: `createInitialSteps_rows` applied to the first created
row. -/
theorem createInitialSteps_rows_witness :
    ({ stepName := "validate_credentials", stepOrder := 1, status := .pending,
        errorMessage := none } : Step).status = .pending :=
  createInitialSteps_rows.2 _ (by decide)

/-- C9: `GetPortAsInt` rejects 0 and 65536, accepts 1 and 65535, and for
every input that Atoi parses to an integer n the conversion succeeds iff
1 ≤ n ≤ 65535. -/
theorem getPortAsInt_range (s : String) (n : Int) (h : goAtoi s = some n) :
    exceptOk (getPortAsInt "0") = false ∧
    exceptOk (getPortAsInt "65536") = false ∧
    getPortAsInt "1" = .ok 1 ∧
    getPortAsInt "65535" = .ok 65535 ∧
    (exceptOk (getPortAsInt s) = true ↔ 1 ≤ n ∧ n ≤ 65535) := by
  refine ⟨by rfl, by rfl, by rfl, by rfl, ?_⟩
  have hne : s ≠ "" := by
    intro he
    rw [he] at h
    simp [goAtoi, parseDigits] at h
  rw [getPortAsInt, if_neg hne, h]
  show exceptOk (if n < 1 ∨ n > 65535 then Except.error "port must be between 1 and 65535"
      else Except.ok n) = true ↔ 1 ≤ n ∧ n ≤ 65535
  by_cases hc : n < 1 ∨ n > 65535
  · rw [if_pos hc]
    simp only [exceptOk]
    constructor
    · intro hfalse
      exact absurd hfalse (by simp)
    · intro hr
      omega
  · rw [if_neg hc]
    simp only [exceptOk]
    constructor
    · intro _
      omega
    · intro _
      trivial

/-- C9 witness: instantiation of `getPortAsInt_range` at the concrete
input "80", whose Atoi value is 80. -/
theorem getPortAsInt_range_witness :
    exceptOk (getPortAsInt "80") = true ↔ 1 ≤ (80 : Int) ∧ (80 : Int) ≤ 65535 :=
  (getPortAsInt_range "80" 80 (by decide)).2.2.2.2

/-- Splitting an `updateFirst` traversal across a prefix in which no element
matches. -/
theorem updateFirst_append_of_none (p : Step → Bool) (f : Step → Step)
    (pre l : List Step) (h : ∀ x ∈ pre, p x = false) :
    updateFirst p f (pre ++ l) = pre ++ updateFirst p f l := by
  induction pre with
  | nil => rfl
  | cons a rest ih =>
    have ha : p a = false := h a (List.mem_cons_self a rest)
    simp only [List.cons_append, updateFirst, ha, Bool.false_eq_true, if_false, List.cons.injEq,
      true_and]
    exact ih (fun x hx => h x (List.mem_cons_of_mem a hx))

/-- One inductive pass of `markRemainingStepsAsFailed`, generalized over a
prefix of rows the loop has already rewritten.  Distinctness of the
step_order keys matches the unique(deployment_id, step_order) constraint of
the schema. -/
theorem markRemainingFold (k : Nat) (todo : List Step) :
    ∀ pre : List Step,
      ((pre ++ todo).map Step.stepOrder).Nodup →
      todo.foldl
        (fun acc step =>
          if (k < step.stepOrder ∧ step.status = .pending) ∨ step.status = .running then
            updateDeploymentStep acc step.stepOrder .failed (some (abandonMsg k))
          else acc)
        (pre ++ todo)
      = pre ++ todo.map (abandonOverwrite k) := by
  induction todo with
  | nil => intro pre _; simp
  | cons s rest ih =>
    intro pre h
    have hpre : ∀ x ∈ pre, (x.stepOrder == s.stepOrder) = false := by
      intro x hx
      have hmaps : ((pre.map Step.stepOrder) ++ ((s :: rest).map Step.stepOrder)).Nodup := by
        simpa using h
      have hdisj := (List.nodup_append.mp hmaps).2.2
      have hne : x.stepOrder ≠ s.stepOrder := by
        intro he
        exact hdisj (List.mem_map_of_mem Step.stepOrder hx)
          (by simp [← he])
      simpa using hne
    rw [List.foldl_cons]
    by_cases hc : (k < s.stepOrder ∧ s.status = .pending) ∨ s.status = .running
    · rw [if_pos hc]
      have hupd :
          updateDeploymentStep (pre ++ s :: rest) s.stepOrder .failed (some (abandonMsg k)) =
            (pre ++ [abandonOverwrite k s]) ++ rest := by
        rw [updateDeploymentStep, updateFirst_append_of_none _ _ _ _ hpre]
        simp [updateFirst, abandonOverwrite, hc]
      have hre : ((pre ++ [abandonOverwrite k s]) ++ rest) = pre ++ abandonOverwrite k s :: rest := by
        simp
      have hord : (abandonOverwrite k s).stepOrder = s.stepOrder := by
        rw [abandonOverwrite]
        split <;> rfl
      have hnodup : (((pre ++ [abandonOverwrite k s]) ++ rest).map Step.stepOrder).Nodup := by
        rw [hre]
        simpa [hord] using h
      have hfold := ih (pre ++ [abandonOverwrite k s]) hnodup
      rw [hre] at hfold
      rw [hupd, hre, hfold]
      simp
    · rw [if_neg hc]
      have hgs : abandonOverwrite k s = s := by
        simp [abandonOverwrite, hc]
      have := ih (pre ++ [s]) (by simpa using h)
      simp only [List.append_assoc, List.singleton_append] at this
      rw [this]
      simp [hgs]

/-- C10: when every row has a distinct step_order, `markRemainingStepsAsFailed k`
rewrites to failed (reason "Step abandoned due to failure in step k") exactly
the rows with `step_order > k` and status pending, plus every running row
regardless of order — the guard parses as `(order > k && pending) || running` —
and never touches rows already completed or failed. -/
theorem markRemainingStepsAsFailed_spec (steps : List Step) (k : Nat)
    (h : (steps.map Step.stepOrder).Nodup) :
    markRemainingStepsAsFailed steps k = steps.map (abandonOverwrite k) ∧
    ∀ s ∈ steps, (s.status = .completed ∨ s.status = .failed) → abandonOverwrite k s = s := by
  constructor
  · have := markRemainingFold k steps [] (by simpa using h)
    simpa [markRemainingStepsAsFailed] using this
  · intro s _ hs
    rcases hs with h1 | h1 <;> simp [abandonOverwrite, h1]

/-- C10 witness: `markRemainingStepsAsFailed_spec` applied to the concrete
rows `demoSteps` with failure at step 2. -/
theorem markRemainingStepsAsFailed_spec_witness :
    markRemainingStepsAsFailed demoSteps 2 = demoSteps.map (abandonOverwrite 2) :=
  (markRemainingStepsAsFailed_spec demoSteps 2 (by decide)).1

/-- C2 (evaluation at the failing input): a fully successful worker run over
the rows written by `createInitialSteps` marks the deployment completed, yet
the `health_check` row (step_order 5) is still pending — the worker's
hard-coded orders 1..4 are off by one against the created rows, so in a
completed deployment a step row remains in a non-completed status. -/
theorem processDeploymentJob_completed_with_pending_step :
    processDeploymentJob createInitialSteps true true true true true =
      (.completed,
        [ { stepName := "validate_credentials", stepOrder := 1, status := .completed, errorMessage := none }
        , { stepName := "git_clone", stepOrder := 2, status := .completed, errorMessage := none }
        , { stepName := "docker_build", stepOrder := 3, status := .completed, errorMessage := none }
        , { stepName := "docker_run", stepOrder := 4, status := .completed, errorMessage := none }
        , { stepName := "health_check", stepOrder := 5, status := .pending, errorMessage := none } ]) ∧
    ∃ s ∈ (processDeploymentJob createInitialSteps true true true true true).2,
      s.status ≠ .completed := by
  refine ⟨by decide, ?_⟩
  decide

/-- C4 counterexample: when the deployment row is written but the very first
step insert fails, the coordinator surfaces no error and still enqueues the
job (step-write failures are only logged). -/
theorem createDeployment_enqueues_despite_step_failure :
    (createDeploymentWithEnvFile true (some 0) true).surfacedError = false ∧
    (createDeploymentWithEnvFile true (some 0) true).enqueued = true ∧
    (createDeploymentWithEnvFile true (some 0) true).stepsWritten ≠ createInitialSteps := by
  decide

/-- C4 amended: a creation error is surfaced, and the enqueue skipped, exactly
when the deployment-row insert fails; step-row insert failures are logged but
neither surface an error nor prevent the enqueue, and the job is enqueued iff
the deployment row was written and the queue push succeeded. -/
theorem createDeployment_enqueue_iff_dep_write (depWriteOk : Bool)
    (stepFailAt : Option (Fin 5)) (enqueueOk : Bool) :
    ((createDeploymentWithEnvFile depWriteOk stepFailAt enqueueOk).surfacedError = true ↔
      depWriteOk = false) ∧
    ((createDeploymentWithEnvFile depWriteOk stepFailAt enqueueOk).enqueued = true ↔
      (depWriteOk = true ∧ enqueueOk = true)) ∧
    (depWriteOk = false →
      (createDeploymentWithEnvFile depWriteOk stepFailAt enqueueOk).stepsWritten = [] ∧
      (createDeploymentWithEnvFile depWriteOk stepFailAt enqueueOk).deploymentWritten = false) := by
  cases depWriteOk <;> cases enqueueOk <;>
    simp [createDeploymentWithEnvFile]

/-- C4 witness: instantiation of `createDeployment_enqueue_iff_dep_write` at a
failed deployment-row write. -/
theorem createDeployment_enqueue_iff_dep_write_witness :
    (createDeploymentWithEnvFile false none true).stepsWritten = [] ∧
    (createDeploymentWithEnvFile false none true).deploymentWritten = false :=
  (createDeployment_enqueue_iff_dep_write false none true).2.2 rfl

/-- C5 (evaluation at the failing input): a GET for a well-formed deployment
id absent from the store returns 500, not the specified 404 — the service
wraps the repository error as "failed to get deployment: deployment not
found", so the handler's string comparison against "deployment not found"
never matches. -/
theorem handlerGetDeployment_unknown_id_is_500 :
    handlerGetDeployment [] "123e4567-e89b-12d3-a456-426614174000" = 500 ∧
    handlerGetDeployment [] "123e4567-e89b-12d3-a456-426614174000" ≠ 404 := by
  decide

/-- C6 counterexample: `sanitizeContainerName` replaces each disallowed
character with a hyphen but never collapses the resulting runs, so
project "P! Q" with deployment "Dep 1" yields `deployknot-p--q-dep-1`,
not the claimed `deployknot-p-q-dep-1`. -/
theorem generateContainerName_keeps_hyphen_runs :
    generateContainerName "d0d0" none (some "P! Q") (some "Dep 1") =
      "deployknot-p--q-dep-1" ∧
    generateContainerName "d0d0" none (some "P! Q") (some "Dep 1") ≠
      "deployknot-p-q-dep-1" := by
  decide

/-- C6 amended: the precedence is as claimed — a non-empty caller-supplied
container_name is used verbatim, else with both display names set the name
is `deployknot-{sanitize(project)}-{sanitize(deployment)}`, else
`deployknot-{id}` — but sanitization maps each disallowed character to its
own hyphen without collapsing runs, so (b) yields `deployknot-p--q-dep-1`. -/
theorem generateContainerName_precedence :
    (∀ (id cn : String) (p d : Option String), cn ≠ "" →
      generateContainerName id (some cn) p d = cn) ∧
    generateContainerName "d0d0" none (some "P! Q") (some "Dep 1") =
      "deployknot-p--q-dep-1" ∧
    (∀ id : String, generateContainerName id none none none = "deployknot-" ++ id) := by
  refine ⟨?_, by decide, ?_⟩
  · intro id cn p d hcn
    simp [generateContainerName, hcn]
  · intro id
    simp [generateContainerName]

/-- C6 witness: instantiation of `generateContainerName_precedence` at the
caller-supplied name "svc-a". -/
theorem generateContainerName_precedence_witness :
    generateContainerName "x" (some "svc-a") none none = "svc-a" :=
  generateContainerName_precedence.1 "x" "svc-a" none none (by decide)

/-- C8: two creation requests that differ only in ssh_password and
github_pat produce identical GetDeployment responses and identical
list-by-user responses — neither read surfaces the credential columns. -/
theorem readAPIs_independent_of_secrets (req : CreateDeploymentRequest)
    (pw1 pat1 pw2 pat2 deploymentID userID : String) (now : Nat) :
    ((createDeploymentRow { req with sshPassword := pw1, githubPAT := pat1 }
          deploymentID now userID).map
        (fun d => serviceGetDeployment [d] deploymentID)) =
      ((createDeploymentRow { req with sshPassword := pw2, githubPAT := pat2 }
          deploymentID now userID).map
        (fun d => serviceGetDeployment [d] deploymentID)) ∧
    ((createDeploymentRow { req with sshPassword := pw1, githubPAT := pat1 }
          deploymentID now userID).map
        (fun d => serviceGetDeploymentsByUser [d] userID)) =
      ((createDeploymentRow { req with sshPassword := pw2, githubPAT := pat2 }
          deploymentID now userID).map
        (fun d => serviceGetDeploymentsByUser [d] userID)) := by
  simp only [createDeploymentRow]
  cases getPortAsInt req.port with
  | error e => exact ⟨rfl, rfl⟩
  | ok p =>
    constructor
    · simp [serviceGetDeployment, repoGetDeployment, deploymentToResponse]
    · simp [serviceGetDeploymentsByUser, deploymentToResponse]

/-- C3 counterexample: with the table holding only `logRowB` (id "b1") at
attach time and `logRowA` (id "a2", later created_at) appended before the
next two polls, the stream never emits `logRowA`: the cursor is already
"b1" and the poll filter demands an id strictly greater, so a row whose
random uuid sorts below an already-emitted id is lost — at-least-once
delivery fails. -/
theorem streamRun_drops_low_id_row :
    (streamRun [logRowB] [[logRowB, logRowA], [logRowB, logRowA]]).emitted = [logRowB] ∧
    logRowA ∈ [logRowB, logRowA] ∧
    logRowA ∉ (streamRun [logRowB] [[logRowB, logRowA], [logRowB, logRowA]]).emitted := by
  decide

/-- Transitivity of the lexicographic comparison used by the log cursor. -/
theorem lexLess_trans :
    ∀ a b c : List Char, lexLess a b = true → lexLess b c = true → lexLess a c = true := by
  intro a
  induction a with
  | nil =>
    intro b c hab hbc
    cases b with
    | nil => simp [lexLess] at hab
    | cons y bs =>
      cases c with
      | nil => simp [lexLess] at hbc
      | cons z cs => simp [lexLess]
  | cons x as ih =>
    intro b c hab hbc
    cases b with
    | nil => simp [lexLess] at hab
    | cons y bs =>
      cases c with
      | nil => simp [lexLess] at hbc
      | cons z cs =>
        simp only [lexLess] at hab hbc ⊢
        by_cases hxy : x < y
        · rw [if_pos hxy] at hab
          by_cases hyz : y < z
          · rw [if_pos (lt_trans hxy hyz)]
          · by_cases hzy : z < y
            · rw [if_neg hyz, if_pos hzy] at hbc
              exact absurd hbc (by simp)
            · have hyz' : y = z := le_antisymm (not_lt.mp hzy) (not_lt.mp hyz)
              rw [if_pos (hyz' ▸ hxy)]
        · by_cases hyx : y < x
          · rw [if_neg hxy, if_pos hyx] at hab
            exact absurd hab (by simp)
          · have hxy' : x = y := le_antisymm (not_lt.mp hyx) (not_lt.mp hxy)
            rw [if_neg hxy, if_neg hyx] at hab
            by_cases hyz : y < z
            · rw [if_pos (hxy' ▸ hyz)]
            · by_cases hzy : z < y
              · rw [if_neg hyz, if_pos hzy] at hbc
                exact absurd hbc (by simp)
              · have hyz' : y = z := le_antisymm (not_lt.mp hzy) (not_lt.mp hyz)
                rw [if_neg hyz, if_neg hzy] at hbc
                have hxz : ¬ x < z := by
                  rw [← hyz', ← hxy']
                  exact lt_irrefl x
                have hzx : ¬ z < x := by
                  rw [← hyz', ← hxy']
                  exact lt_irrefl x
                rw [if_neg hxz, if_neg hzx]
                exact ih bs cs hab hbc

/-- Transitivity of `goStringLt`. -/
theorem goStringLt_trans (a b c : String) (h1 : goStringLt a b = true)
    (h2 : goStringLt b c = true) : goStringLt a c = true :=
  lexLess_trans a.data b.data c.data h1 h2

/-- Mixed transitivity: non-strict then strict. -/
theorem goStringLt_of_le_of_lt (a b c : String) (h1 : strLE a b)
    (h2 : goStringLt b c = true) : goStringLt a c = true := by
  rcases h1 with rfl | h1
  · exact h2
  · exact goStringLt_trans a b c h1 h2

/-- Transitivity of `strLE`. -/
theorem strLE_trans (a b c : String) (h1 : strLE a b) (h2 : strLE b c) : strLE a c := by
  rcases h2 with rfl | h2
  · exact h1
  · exact Or.inr (goStringLt_of_le_of_lt a b c h1 h2)

/-- Behaviour of one poll batch: the cursor never decreases and every newly
emitted row has an id strictly above the cursor the batch started with. -/
theorem streamPollBatch_above_cursor (batch : List LogRow) :
    ∀ st : StreamState,
      strLE st.cursor (batch.foldl streamPollStep st).cursor ∧
      ∀ r : LogRow, r ∈ (batch.foldl streamPollStep st).emitted →
        r ∈ st.emitted ∨ goStringLt st.cursor r.id = true := by
  induction batch with
  | nil =>
    intro st
    exact ⟨Or.inl rfl, fun r h => Or.inl h⟩
  | cons l rest ih =>
    intro st
    rw [List.foldl_cons]
    by_cases h : goStringLt st.cursor l.id = true
    · have hstep : streamPollStep st l =
          { emitted := st.emitted ++ [l], cursor := l.id } := by
        rw [streamPollStep, if_pos h]
      rw [hstep]
      rcases ih { emitted := st.emitted ++ [l], cursor := l.id } with ⟨hc, hm⟩
      refine ⟨strLE_trans _ l.id _ (Or.inr h) hc, ?_⟩
      intro r hr
      rcases hm r hr with hmem | hlt
      · rcases List.mem_append.mp hmem with h1 | h1
        · exact Or.inl h1
        · have hrl : r = l := by simpa using h1
          exact Or.inr (hrl ▸ h)
      · exact Or.inr (goStringLt_trans _ l.id _ h hlt)
    · have hstep : streamPollStep st l = st := by
        rw [streamPollStep, if_neg h]
      rw [hstep]
      exact ih st

/-- C3 amended: the poll cursor never decreases across any sequence of
polls, and a row emitted during polling had an id strictly greater than the
cursor at the point it was emitted; consequently a row whose id is at or
below the cursor when it first appears in the table is skipped on every
subsequent poll (skipped forever), so observers are only guaranteed rows
with ever-increasing ids — at-least-once delivery does not hold. -/
theorem streamPoll_emits_only_above_cursor (polls : List (List LogRow)) :
    ∀ (st : StreamState) (r : LogRow),
      strLE st.cursor (polls.foldl streamPoll st).cursor ∧
      (r ∈ (polls.foldl streamPoll st).emitted →
        r ∈ st.emitted ∨ goStringLt st.cursor r.id = true) := by
  induction polls with
  | nil =>
    intro st r
    exact ⟨Or.inl rfl, fun h => Or.inl h⟩
  | cons db rest ih =>
    intro st r
    rw [List.foldl_cons]
    rcases streamPollBatch_above_cursor (getDeploymentLogs db 100) st with ⟨hc, hm⟩
    rcases ih (streamPoll st db) r with ⟨hc2, hm2⟩
    have hcp : strLE st.cursor (streamPoll st db).cursor := hc
    refine ⟨strLE_trans _ _ _ hcp hc2, ?_⟩
    intro hr
    rcases hm2 hr with hmem | hlt
    · exact hm r hmem
    · exact Or.inr (goStringLt_of_le_of_lt _ _ _ hcp hlt)

/-- C3 witness: `streamPoll_emits_only_above_cursor` applied to the concrete
scenario of the counterexample, at the row that was emitted. -/
theorem streamPoll_emits_only_above_cursor_witness :
    logRowB ∈ (streamAttach [logRowB]).emitted ∨
      goStringLt (streamAttach [logRowB]).cursor logRowB.id = true :=
  (streamPoll_emits_only_above_cursor [[logRowB, logRowA]] (streamAttach [logRowB]) logRowB).2
    (by decide)

/-- Unfolding equation for `trimRightBy` on a cons cell. -/
theorem trimRightBy_cons (p : Char → Bool) (x : Char) (rest : List Char) :
    trimRightBy p (x :: rest) =
      if trimRightBy p rest = [] then (if p x then [] else [x])
      else x :: trimRightBy p rest := rfl

/-- Elements surviving `trimRightBy` come from the original list. -/
theorem mem_of_mem_trimRightBy (p : Char → Bool) :
    ∀ (l : List Char) (a : Char), a ∈ trimRightBy p l → a ∈ l := by
  intro l
  induction l with
  | nil => intro a h; simp [trimRightBy] at h
  | cons x rest ih =>
    intro a h
    rw [trimRightBy_cons] at h
    by_cases hr : trimRightBy p rest = []
    · rw [if_pos hr] at h
      by_cases hp : p x
      · rw [if_pos hp] at h
        simp at h
      · rw [if_neg hp] at h
        have : a = x := by simpa using h
        exact this ▸ List.mem_cons_self x rest
    · rw [if_neg hr] at h
      rcases List.mem_cons.mp h with h1 | h1
      · exact h1 ▸ List.mem_cons_self x rest
      · exact List.mem_cons_of_mem x (ih a h1)

/-- Elements surviving `dropWhile` come from the original list. -/
theorem mem_of_mem_dropWhileChar (p : Char → Bool) :
    ∀ (l : List Char) (a : Char), a ∈ l.dropWhile p → a ∈ l := by
  intro l
  induction l with
  | nil => intro a h; simp at h
  | cons x rest ih =>
    intro a h
    rw [List.dropWhile_cons] at h
    by_cases hp : p x
    · rw [if_pos hp] at h
      exact List.mem_cons_of_mem x (ih a h)
    · rw [if_neg hp] at h
      exact h

/-- Elements surviving `takeWhile` come from the original list and satisfy
the predicate. -/
theorem mem_of_mem_takeWhileChar (p : Char → Bool) :
    ∀ (l : List Char) (a : Char), a ∈ l.takeWhile p → a ∈ l ∧ p a = true := by
  intro l
  induction l with
  | nil => intro a h; simp at h
  | cons x rest ih =>
    intro a h
    rw [List.takeWhile_cons] at h
    by_cases hp : p x
    · rw [if_pos hp] at h
      rcases List.mem_cons.mp h with h1 | h1
      · exact ⟨h1 ▸ List.mem_cons_self x rest, h1 ▸ hp⟩
      · rcases ih a h1 with ⟨hm, hpa⟩
        exact ⟨List.mem_cons_of_mem x hm, hpa⟩
    · rw [if_neg hp] at h
      simp at h

/-- Elements surviving `trimBy` come from the original list. -/
theorem mem_of_mem_trimBy (p : Char → Bool) (l : List Char) (a : Char)
    (h : a ∈ trimBy p l) : a ∈ l :=
  mem_of_mem_dropWhileChar p l a (mem_of_mem_trimRightBy p (trimLeftBy p l) a h)

/-- Head of a list. -/
theorem head?_memChar : ∀ (l : List Char) (a : Char), l.head? = some a → a ∈ l := by
  intro l a h
  cases l with
  | nil => simp at h
  | cons x rest =>
    have : x = a := by simpa using h
    exact this ▸ List.mem_cons_self x rest

/-- Last element of a list is a member. -/
theorem getLast?_memChar (l : List Char) (a : Char) (h : l.getLast? = some a) : a ∈ l := by
  rcases List.mem_getLast?_eq_getLast (l := l) (x := a) h with ⟨hne, rfl⟩
  exact List.getLast_mem hne

/-- Head of `dropWhile` fails the predicate. -/
theorem head?_dropWhile_false (p : Char → Bool) :
    ∀ (l : List Char) (a : Char), (l.dropWhile p).head? = some a → p a = false := by
  intro l
  induction l with
  | nil => intro a h; simp at h
  | cons x rest ih =>
    intro a h
    rw [List.dropWhile_cons] at h
    by_cases hp : p x
    · rw [if_pos hp] at h
      exact ih a h
    · rw [if_neg hp] at h
      have : x = a := by simpa using h
      simpa [← this] using hp

/-- `dropWhile` is the identity when the head fails the predicate. -/
theorem dropWhile_eq_self_of_head (p : Char → Bool) (l : List Char)
    (h : ∀ a, l.head? = some a → p a = false) : l.dropWhile p = l := by
  cases l with
  | nil => rfl
  | cons x rest =>
    have hp : p x = false := h x rfl
    rw [List.dropWhile_cons, hp]
    simp

/-- Last element surviving `trimRightBy` fails the predicate. -/
theorem trimRightBy_getLast_false (p : Char → Bool) :
    ∀ (l : List Char) (a : Char), (trimRightBy p l).getLast? = some a → p a = false := by
  intro l
  induction l with
  | nil => intro a h; simp [trimRightBy] at h
  | cons x rest ih =>
    intro a h
    rw [trimRightBy_cons] at h
    by_cases hr : trimRightBy p rest = []
    · rw [if_pos hr] at h
      by_cases hp : p x
      · rw [if_pos hp] at h
        simp at h
      · rw [if_neg hp] at h
        have : x = a := by simpa using h
        simpa [← this] using hp
    · rw [if_neg hr] at h
      rcases List.exists_cons_of_ne_nil hr with ⟨y, t, hyt⟩
      rw [hyt, List.getLast?_cons_cons] at h
      exact ih a (hyt ▸ h)

/-- `trimRightBy` is the identity when the last element fails the
predicate. -/
theorem trimRightBy_eq_self_of_getLast (p : Char → Bool) :
    ∀ l : List Char, (∀ a, l.getLast? = some a → p a = false) → trimRightBy p l = l := by
  intro l
  induction l with
  | nil => intro _; rfl
  | cons x rest ih =>
    intro h
    cases rest with
    | nil =>
      have hp : p x = false := h x rfl
      rw [trimRightBy_cons]
      simp [trimRightBy, hp]
    | cons y t =>
      have hrest : trimRightBy p (y :: t) = y :: t := by
        apply ih
        intro a ha
        exact h a (by rw [List.getLast?_cons_cons]; exact ha)
      rw [trimRightBy_cons, hrest]
      simp

/-- `trimRightBy` keeps the head when the result is non-empty. -/
theorem head?_trimRightBy (p : Char → Bool) :
    ∀ l : List Char, trimRightBy p l ≠ [] → (trimRightBy p l).head? = l.head? := by
  intro l
  induction l with
  | nil => intro h; exact absurd rfl h
  | cons x rest _ =>
    intro h
    rw [trimRightBy_cons] at h ⊢
    by_cases hr : trimRightBy p rest = []
    · rw [if_pos hr] at h ⊢
      by_cases hp : p x
      · rw [if_pos hp] at h
        exact absurd rfl h
      · rw [if_neg hp]
        rfl
    · rw [if_neg hr]
      rfl

/-- `trimRightBy` cannot erase an element that fails the predicate. -/
theorem trimRightBy_ne_nil (p : Char → Bool) :
    ∀ (l : List Char) (a : Char), a ∈ l → p a = false → trimRightBy p l ≠ [] := by
  intro l
  induction l with
  | nil => intro a h _; simp at h
  | cons x rest ih =>
    intro a h hp
    rw [trimRightBy_cons]
    by_cases hr : trimRightBy p rest = []
    · rw [if_pos hr]
      rcases List.mem_cons.mp h with h1 | h1
      · rw [h1] at hp
        rw [hp]
        simp
      · exact absurd (ih a h1 hp) (by simp [hr])
    · rw [if_neg hr]
      simp

/-- `trimBy` is the identity on lists with no cutset character at all. -/
theorem trimBy_eq_self_of_all (p : Char → Bool) (l : List Char)
    (h : ∀ a ∈ l, p a = false) : trimBy p l = l := by
  have hdrop : l.dropWhile p = l :=
    dropWhile_eq_self_of_head p l (fun a ha => h a (head?_memChar l a ha))
  rw [trimBy, trimLeftBy, hdrop]
  exact trimRightBy_eq_self_of_getLast p l (fun a ha => h a (getLast?_memChar l a ha))

/-- `trimBy` is idempotent. -/
theorem trimBy_idem (p : Char → Bool) (l : List Char) :
    trimBy p (trimBy p l) = trimBy p l := by
  have hdrop : (trimBy p l).dropWhile p = trimBy p l := by
    apply dropWhile_eq_self_of_head
    intro a ha
    rw [trimBy] at ha
    by_cases hne : trimRightBy p (trimLeftBy p l) = []
    · rw [hne] at ha
      simp at ha
    · rw [head?_trimRightBy p _ hne] at ha
      exact head?_dropWhile_false p l a ha
  rw [trimBy, trimLeftBy, hdrop]
  apply trimRightBy_eq_self_of_getLast
  intro a ha
  exact trimRightBy_getLast_false p (trimLeftBy p l) a ha

/-- Unfolding equation for `splitOnChar` on a cons cell. -/
theorem splitOnChar_cons (c a : Char) (rest : List Char) :
    splitOnChar c (a :: rest) =
      if a = c then [] :: splitOnChar c rest
      else
        match splitOnChar c rest with
        | [] => [[a]]
        | h :: t => (a :: h) :: t := rfl

/-- `splitOnChar` always returns at least one piece. -/
theorem splitOnChar_ne_nil (c : Char) : ∀ l : List Char, splitOnChar c l ≠ [] := by
  intro l
  induction l with
  | nil => simp [splitOnChar]
  | cons a rest ih =>
    rw [splitOnChar_cons]
    by_cases hac : a = c
    · rw [if_pos hac]
      simp
    · rw [if_neg hac]
      rcases hr : splitOnChar c rest with _ | ⟨h, t⟩
      · simp
      · simp

/-- Every character of every piece of `splitOnChar` avoids the separator
and comes from the original list. -/
theorem splitOnChar_pieces (c : Char) :
    ∀ (l piece : List Char), piece ∈ splitOnChar c l →
      ∀ a ∈ piece, a ≠ c ∧ a ∈ l := by
  intro l
  induction l with
  | nil =>
    intro piece hp a ha
    have : piece = [] := by simpa [splitOnChar] using hp
    rw [this] at ha
    simp at ha
  | cons x rest ih =>
    intro piece hp a ha
    rw [splitOnChar_cons] at hp
    by_cases hxc : x = c
    · rw [if_pos hxc] at hp
      rcases List.mem_cons.mp hp with h1 | h1
      · rw [h1] at ha
        simp at ha
      · rcases ih piece h1 a ha with ⟨hne, hmem⟩
        exact ⟨hne, List.mem_cons_of_mem x hmem⟩
    · rw [if_neg hxc] at hp
      rcases hr : splitOnChar c rest with _ | ⟨h, t⟩
      · exact absurd hr (splitOnChar_ne_nil c rest)
      · rw [hr] at hp
        rcases List.mem_cons.mp hp with h1 | h1
        · rw [h1] at ha
          rcases List.mem_cons.mp ha with h2 | h2
          · exact ⟨h2 ▸ hxc, h2 ▸ List.mem_cons_self x rest⟩
          · rcases ih h (by rw [hr]; exact List.mem_cons_self h t) a h2 with ⟨hne, hmem⟩
            exact ⟨hne, List.mem_cons_of_mem x hmem⟩
        · rcases ih piece (by rw [hr]; exact List.mem_cons_of_mem h h1) a ha with ⟨hne, hmem⟩
          exact ⟨hne, List.mem_cons_of_mem x hmem⟩

/-- A separator-free list splits into itself. -/
theorem splitOnChar_of_not_mem (c : Char) :
    ∀ l : List Char, (∀ a ∈ l, a ≠ c) → splitOnChar c l = [l] := by
  intro l
  induction l with
  | nil => intro _; rfl
  | cons x rest ih =>
    intro h
    have hxc : x ≠ c := h x (List.mem_cons_self x rest)
    have hrest : splitOnChar c rest = [rest] :=
      ih (fun a ha => h a (List.mem_cons_of_mem x ha))
    rw [splitOnChar_cons, if_neg hxc, hrest]

/-- Splitting a list of the form `l ++ c :: m` with separator-free `l`
peels off `l` as the first piece. -/
theorem splitOnChar_append (c : Char) :
    ∀ (l m : List Char), (∀ a ∈ l, a ≠ c) →
      splitOnChar c (l ++ c :: m) = l :: splitOnChar c m := by
  intro l
  induction l with
  | nil =>
    intro m _
    rw [List.nil_append, splitOnChar_cons, if_pos rfl]
  | cons x rest ih =>
    intro m h
    have hxc : x ≠ c := h x (List.mem_cons_self x rest)
    have hrest : splitOnChar c (rest ++ c :: m) = rest :: splitOnChar c m :=
      ih m (fun a ha => h a (List.mem_cons_of_mem x ha))
    rw [List.cons_append, splitOnChar_cons, if_neg hxc, hrest]

/-- Join/split round trip: `splitOnChar` undoes `joinWith` when no piece
contains the separator. -/
theorem splitOnChar_joinWith (c : Char) :
    ∀ ls : List (List Char), ls ≠ [] → (∀ piece ∈ ls, ∀ a ∈ piece, a ≠ c) →
      splitOnChar c (joinWith c ls) = ls := by
  intro ls
  induction ls with
  | nil => intro h _; exact absurd rfl h
  | cons l rest ih =>
    intro _ h
    cases rest with
    | nil =>
      rw [joinWith]
      exact splitOnChar_of_not_mem c l (h l (List.mem_cons_self l []))
    | cons l2 t =>
      rw [joinWith, splitOnChar_append c l _ (h l (List.mem_cons_self l _))]
      rw [ih (by simp) (fun piece hp a ha => h piece (List.mem_cons_of_mem l hp) a ha)]

/-- `filterMap` over a list of fixed points of `f` is the identity. -/
theorem filterMap_fixpoints {α : Type} (f : α → Option α) :
    ∀ L : List α, (∀ x ∈ L, f x = some x) → L.filterMap f = L := by
  intro L
  induction L with
  | nil => intro _; rfl
  | cons x rest ih =>
    intro h
    rw [List.filterMap_cons, h x (List.mem_cons_self x rest),
      ih (fun y hy => h y (List.mem_cons_of_mem x hy))]

/-- `takeWhile`/`dropWhile` recover the two halves of `key ++ c :: v` when
all of `key` satisfies the predicate and `c` fails it. -/
theorem takeWhile_dropWhile_append (p : Char → Bool) :
    ∀ (key : List Char) (c : Char) (v : List Char),
      (∀ a ∈ key, p a = true) → p c = false →
      (key ++ c :: v).takeWhile p = key ∧ (key ++ c :: v).dropWhile p = c :: v := by
  intro key
  induction key with
  | nil =>
    intro c v _ hc
    constructor
    · rw [List.nil_append, List.takeWhile_cons, hc]
      simp
    · rw [List.nil_append, List.dropWhile_cons, hc]
      simp
  | cons k ks ih =>
    intro c v h hc
    have hk : p k = true := h k (List.mem_cons_self k ks)
    rcases ih c v (fun a ha => h a (List.mem_cons_of_mem k ha)) hc with ⟨h1, h2⟩
    constructor
    · rw [List.cons_append, List.takeWhile_cons, hk]
      simp [h1]
    · rw [List.cons_append, List.dropWhile_cons, hk]
      simp [h2]

/-- Members of the tail are members of the list. -/
theorem mem_of_mem_tailChar (m : List Char) (a : Char) (h : a ∈ m.tail) : a ∈ m := by
  cases m with
  | nil => simp at h
  | cons x rest => exact List.mem_cons_of_mem x h

/-- Core fixed point: on a quote-free line, a successfully normalized line
normalizes to itself, and every character of the output comes from the line
or is the `=` separator (so the output has no newline either). -/
theorem processLine_fixpoint (line out : List Char)
    (hq : ∀ a ∈ line, isQuoteChar a = false)
    (hpl : processLine line = some out) :
    processLine out = some out ∧ ∀ a ∈ out, a ∈ line ∨ a = '=' := by
  have hpl' :
      (if goTrimSpace line = [] then none
       else if (goTrimSpace line).head? = some '#' then none
       else if !((goTrimSpace line).contains '=') then none
       else some (goTrimSpace ((goTrimSpace line).takeWhile (fun ch => ch != '=')) ++ '=' ::
         goTrimQuotes (goTrimSpace
           (((goTrimSpace line).dropWhile (fun ch => ch != '=')).tail)))) = some out := hpl
  by_cases h1 : goTrimSpace line = []
  · rw [if_pos h1] at hpl'
    exact absurd hpl' (by simp)
  rw [if_neg h1] at hpl'
  by_cases h2 : (goTrimSpace line).head? = some '#'
  · rw [if_pos h2] at hpl'
    exact absurd hpl' (by simp)
  rw [if_neg h2] at hpl'
  cases hcont : (goTrimSpace line).contains '=' with
  | false =>
    rw [hcont] at hpl'
    exact absurd hpl' (by simp)
  | true =>
    rw [hcont] at hpl'
    simp only [Bool.not_true, Bool.false_eq_true, if_false] at hpl'
    have hout : out =
        goTrimSpace ((goTrimSpace line).takeWhile (fun ch => ch != '=')) ++ '=' ::
          goTrimQuotes (goTrimSpace
            (((goTrimSpace line).dropWhile (fun ch => ch != '=')).tail)) :=
      (Option.some.injEq _ _ ▸ hpl').symm
    -- abbreviations for the two halves
    have hlmem : ∀ a ∈ goTrimSpace line, a ∈ line :=
      fun a ha => mem_of_mem_trimBy isGoSpace line a ha
    have hlq : ∀ a ∈ goTrimSpace line, isQuoteChar a = false :=
      fun a ha => hq a (hlmem a ha)
    obtain ⟨x, ltail, hl0⟩ := List.exists_cons_of_ne_nil h1
    have hxsp : isGoSpace x = false := by
      have hhd : (goTrimSpace line).head? = (trimLeftBy isGoSpace line).head? :=
        head?_trimRightBy isGoSpace (trimLeftBy isGoSpace line) h1
      have : (trimLeftBy isGoSpace line).head? = some x := by
        rw [← hhd, hl0]
        rfl
      exact head?_dropWhile_false isGoSpace line x this
    have hxhash : x ≠ '#' := by
      intro he
      rw [hl0, he] at h2
      exact h2 rfl
    set k0 := (goTrimSpace line).takeWhile (fun ch => ch != '=') with hk0def
    set v0 := ((goTrimSpace line).dropWhile (fun ch => ch != '=')).tail with hv0def
    have hkeymem : ∀ a ∈ goTrimSpace k0, a ∈ goTrimSpace line := by
      intro a ha
      have h1a := mem_of_mem_trimBy isGoSpace k0 a ha
      exact (mem_of_mem_takeWhileChar _ (goTrimSpace line) a h1a).1
    have hkeyp : ∀ a ∈ goTrimSpace k0, (a != '=') = true := by
      intro a ha
      have h1a := mem_of_mem_trimBy isGoSpace k0 a ha
      exact (mem_of_mem_takeWhileChar _ (goTrimSpace line) a h1a).2
    have hv0mem : ∀ a ∈ v0, a ∈ goTrimSpace line := by
      intro a ha
      exact mem_of_mem_dropWhileChar _ (goTrimSpace line) a
        (mem_of_mem_tailChar _ a ha)
    have hvq : ∀ a ∈ goTrimSpace v0, isQuoteChar a = false := by
      intro a ha
      exact hlq a (hv0mem a (mem_of_mem_trimBy isGoSpace v0 a ha))
    have hvalue_eq : goTrimQuotes (goTrimSpace v0) = goTrimSpace v0 :=
      trimBy_eq_self_of_all isQuoteChar (goTrimSpace v0) hvq
    -- head of the rebuilt line: either '=' or the head x of the trimmed line
    have hkeyhead : ∀ a, (goTrimSpace k0).head? = some a → a = x ∧ isGoSpace a = false := by
      intro a ha
      by_cases hxeq : (x != '=') = true
      · have hk0c : k0 = x :: (ltail.takeWhile (fun ch => ch != '=')) := by
          rw [hk0def, hl0, List.takeWhile_cons, if_pos hxeq]
        have hdropk0 : trimLeftBy isGoSpace k0 = k0 := by
          apply dropWhile_eq_self_of_head
          intro b hb
          rw [hk0c] at hb
          have : x = b := by simpa using hb
          exact this ▸ hxsp
        have hne : goTrimSpace k0 ≠ [] := by
          show trimRightBy isGoSpace (trimLeftBy isGoSpace k0) ≠ []
          rw [hdropk0]
          exact trimRightBy_ne_nil isGoSpace k0 x (hk0c ▸ List.mem_cons_self x _) hxsp
        have : (goTrimSpace k0).head? = k0.head? := by
          show (trimRightBy isGoSpace (trimLeftBy isGoSpace k0)).head? = k0.head?
          rw [head?_trimRightBy isGoSpace (trimLeftBy isGoSpace k0) hne, hdropk0]
        rw [this, hk0c] at ha
        have hax : x = a := by simpa using ha
        exact ⟨hax.symm, hax ▸ hxsp⟩
      · have hk0c : k0 = [] := by
          rw [hk0def, hl0, List.takeWhile_cons, if_neg hxeq]
        rw [hk0c] at ha
        simp [goTrimSpace, trimBy, trimLeftBy, trimRightBy] at ha
    have hheadout : ∀ a, out.head? = some a → isGoSpace a = false ∧ a ≠ '#' := by
      intro a ha
      rw [hout] at ha
      cases hkey : goTrimSpace k0 with
      | nil =>
        rw [hkey, List.nil_append] at ha
        have : '=' = a := by simpa using ha
        rw [← this]
        exact ⟨by decide, by decide⟩
      | cons kx kt =>
        rw [hkey, List.cons_append] at ha
        have hka : kx = a := by simpa using ha
        rcases hkeyhead kx (by rw [hkey]; rfl) with ⟨hkx, hksp⟩
        rw [← hka]
        exact ⟨hksp, hkx ▸ hxhash⟩
    have hlastout : ∀ a, out.getLast? = some a → isGoSpace a = false := by
      intro a ha
      rw [hout, List.getLast?_append_cons] at ha
      cases hv : goTrimQuotes (goTrimSpace v0) with
      | nil =>
        rw [hv] at ha
        have : '=' = a := by simpa using ha
        rw [← this]
        decide
      | cons vh vt =>
        rw [hv, List.getLast?_cons_cons] at ha
        rw [← hv, hvalue_eq] at ha
        exact trimRightBy_getLast_false isGoSpace (trimLeftBy isGoSpace v0) a ha
    have houtne : out ≠ [] := by
      rw [hout]
      simp
    have htsout : goTrimSpace out = out := by
      show trimRightBy isGoSpace (trimLeftBy isGoSpace out) = out
      have hdrop : trimLeftBy isGoSpace out = out :=
        dropWhile_eq_self_of_head isGoSpace out (fun a ha => (hheadout a ha).1)
      rw [hdrop]
      exact trimRightBy_eq_self_of_getLast isGoSpace out (fun a ha => hlastout a ha)
    have hnohash : out.head? ≠ some '#' := by
      intro he
      exact (hheadout '#' he).2 rfl
    have hcontout : out.contains '=' = true := by
      apply List.elem_eq_true_of_mem
      rw [hout]
      exact List.mem_append_right _ (List.mem_cons_self '=' _)
    rcases takeWhile_dropWhile_append (fun ch => ch != '=') (goTrimSpace k0) '='
        (goTrimQuotes (goTrimSpace v0)) hkeyp (by decide) with ⟨hsplit1, hsplit2⟩
    constructor
    · have hpl2 : processLine out =
          (if goTrimSpace out = [] then none
           else if (goTrimSpace out).head? = some '#' then none
           else if !((goTrimSpace out).contains '=') then none
           else some (goTrimSpace ((goTrimSpace out).takeWhile (fun ch => ch != '=')) ++ '=' ::
             goTrimQuotes (goTrimSpace
               (((goTrimSpace out).dropWhile (fun ch => ch != '=')).tail)))) := rfl
      rw [hpl2, htsout, if_neg houtne, if_neg hnohash, hcontout]
      simp only [Bool.not_true, Bool.false_eq_true, if_false]
      rw [hout, hsplit1, hsplit2]
      show some (goTrimSpace (goTrimSpace k0) ++ '=' ::
        goTrimQuotes (goTrimSpace (goTrimQuotes (goTrimSpace v0)))) = _
      rw [hvalue_eq]
      rw [show goTrimSpace (goTrimSpace k0) = goTrimSpace k0 from trimBy_idem isGoSpace k0]
      rw [show goTrimSpace (goTrimSpace v0) = goTrimSpace v0 from trimBy_idem isGoSpace v0]
      rw [hvalue_eq]
    · intro a ha
      rw [hout] at ha
      rcases List.mem_append.mp ha with hmem | hmem
      · exact Or.inl (hlmem a (hkeymem a hmem))
      · rcases List.mem_cons.mp hmem with h3 | h3
        · exact Or.inr h3
        · rw [hvalue_eq] at h3
          exact Or.inl (hlmem a (hv0mem a (mem_of_mem_trimBy isGoSpace v0 a h3)))

/-- C7 counterexample: normalization is not idempotent.  On the input
line `A="x "` the first pass strips the quotes and exposes a trailing
space (`A=x `), which the second pass then trims (`A=x`), so
`normalize(normalize(s)) ≠ normalize(s)`. -/
theorem processEnvironmentVariables_not_idempotent :
    processEnvironmentVariables "A=\"x \"" = "A=x " ∧
    processEnvironmentVariables (processEnvironmentVariables "A=\"x \"") = "A=x" ∧
    processEnvironmentVariables (processEnvironmentVariables "A=\"x \"") ≠
      processEnvironmentVariables "A=\"x \"" := by
  refine ⟨by decide, by decide, by decide⟩

/-- C7 amended: `processEnvironmentVariables` is idempotent on every input
that contains no single or double quote character; in general idempotence
fails because stripping quotes can expose whitespace (and further quotes)
that only later passes remove. -/
theorem processEnvironmentVariables_idempotent_of_quote_free (s : String)
    (hq : ∀ c ∈ s.data, isQuoteChar c = false) :
    processEnvironmentVariables (processEnvironmentVariables s) =
      processEnvironmentVariables s := by
  have hpiece_props : ∀ p ∈ splitOnChar '\n' s.data, ∀ a ∈ p, a ≠ '\n' ∧ a ∈ s.data :=
    fun p hp a ha => splitOnChar_pieces '\n' s.data p hp a ha
  have hfix : ∀ out ∈ (splitOnChar '\n' s.data).filterMap processLine,
      processLine out = some out ∧ ∀ a ∈ out, a ≠ '\n' := by
    intro out hout
    rcases List.mem_filterMap.mp hout with ⟨p, hp, hfp⟩
    have hpq : ∀ a ∈ p, isQuoteChar a = false :=
      fun a ha => hq a (hpiece_props p hp a ha).2
    rcases processLine_fixpoint p out hpq hfp with ⟨hfix1, hmem⟩
    refine ⟨hfix1, ?_⟩
    intro a ha
    rcases hmem a ha with h | h
    · exact (hpiece_props p hp a h).1
    · rw [h]
      decide
  cases hLnil : (splitOnChar '\n' s.data).filterMap processLine with
  | nil =>
    have h1 : processEnvironmentVariables s = "" := by
      show String.mk (joinWith '\n' ((splitOnChar '\n' s.data).filterMap processLine)) = ""
      rw [hLnil]
      decide
    rw [h1]
    decide
  | cons out rest =>
    have hLne : (splitOnChar '\n' s.data).filterMap processLine ≠ [] := by
      rw [hLnil]
      simp
    have hsplit :
        splitOnChar '\n' (joinWith '\n' ((splitOnChar '\n' s.data).filterMap processLine)) =
          (splitOnChar '\n' s.data).filterMap processLine :=
      splitOnChar_joinWith '\n' _ hLne (fun p hp a ha => (hfix p hp).2 a ha)
    have hfilter :
        ((splitOnChar '\n' s.data).filterMap processLine).filterMap processLine =
          (splitOnChar '\n' s.data).filterMap processLine :=
      filterMap_fixpoints processLine _ (fun xx hxx => (hfix xx hxx).1)
    show String.mk (joinWith '\n'
        ((splitOnChar '\n'
          (joinWith '\n' ((splitOnChar '\n' s.data).filterMap processLine))).filterMap
            processLine)) =
      String.mk (joinWith '\n' ((splitOnChar '\n' s.data).filterMap processLine))
    rw [hsplit, hfilter]

/-- C7 witness: `processEnvironmentVariables_idempotent_of_quote_free`
applied to a concrete quote-free env file with comments, blank lines and
padding. -/
theorem processEnvironmentVariables_idempotent_witness :
    processEnvironmentVariables
        (processEnvironmentVariables "# hdr\nA=1\n\n  B = two words \nbad line\n") =
      processEnvironmentVariables "# hdr\nA=1\n\n  B = two words \nbad line\n" :=
  processEnvironmentVariables_idempotent_of_quote_free
    "# hdr\nA=1\n\n  B = two words \nbad line\n" (by decide)

end DeployKnot
